import Mathlib

/-
Verification of the multi-source literature search aggregator
(`UnifiedSearchManager` in ncbi_client.py / unified_client.py).

Strings from the Python source are modelled as `List Char` (`Str` below) so
that every operation is a computable structural function.  Python `dict`
records are modelled as the structure `Rec`; a missing or `None`/non-integer
`citations` value is `Option.none`, a missing `doi` is `Option.none`.
Python's `list.sort(key=...)` is a stable sort; it is embedded in two
extensionally equivalent ways, documented at `bucketSort` and `insSort`.
-/

abbrev Str := List Char

/-- Lowercasing, modelling Python `str.lower()` (ASCII range). -/
def toLowerL (s : Str) : Str := s.map Char.toLower

/-- Title normalization from `_merge_and_deduplicate.normalize`:
`"".join(e for e in str(text) if e.isalnum()).lower()` — keep alphanumeric
characters, then lowercase. -/
def normTitle (s : Str) : Str := (s.filter Char.isAlphanum).map Char.toLower

/-- Python `str.split()` with no argument: split on runs of whitespace and
drop empty chunks. -/
def splitWs (s : Str) : List Str :=
  (List.splitOnP (fun c => c.isWhitespace) s).filter (fun w => w ≠ [])

/-- Python's substring test `needle in hay` for strings: contiguous infix. -/
def isSub (needle hay : Str) : Bool := decide (needle <:+: hay)

/-- One bibliographic record, the canonical shape produced by every provider
adapter in ncbi_client.py.  `citations = none` models a missing or
non-integer (`None`, string, ...) citations value; `some n` an `int` value.
`doi = none` models a missing/`None` DOI.  The `relevance` field models the
`relevance_score` key, which the Python dict only receives during ranking;
before ranking its value is irrelevant to every function below. -/
structure Rec where
  source : Str
  title : Str
  authors : Str
  journal : Str
  year : Str
  abstract : Str
  citations : Option Int
  url : Str
  pdfUrl : Str
  doi : Option Str
  relevance : Nat
deriving DecidableEq

/-- Embeds `UnifiedSearchManager.priority_order`. -/
def priorityOrder : List Str :=
  ["PubMed".data, "Semantic Scholar".data, "Europe PMC".data,
   "OpenAlex".data, "PLOS".data]

/-- Python `list.index` on a list the element is known to belong to:
position of the first occurrence. -/
def idxOf (s : Str) : List Str → Nat
  | [] => 0
  | t :: ts => if t = s then 0 else idxOf s ts + 1

/-- Embeds `_merge_and_deduplicate.get_priority`: index in `priority_order`, else 99. -/
def getPriority (r : Rec) : Nat :=
  if r.source ∈ priorityOrder then idxOf r.source priorityOrder else 99

/-- Stable sort by a `Nat` key bounded by `bound`, as the concatenation of the
key-classes in increasing key order.  A stable sort (ties keep their input
order) by an integer key is extensionally exactly this concatenation, so this
embeds Python's stable `list.sort(key=...)` for the bounded key
`get_priority` (whose values are `0..4` and `99`). -/
def bucketSort {α : Type} (key : α → Nat) (bound : Nat) (l : List α) : List α :=
  ((List.range bound).map (fun p => l.filter (fun x => key x = p))).flatten

/-- Embeds `all_items.sort(key=get_priority)` in `_merge_and_deduplicate`. -/
def sortByPriority (l : List Rec) : List Rec := bucketSort getPriority 100 l

/-- The single pass of `_merge_and_deduplicate` after the priority sort:
records with an empty normalized title are skipped, and only the first record
of each normalized title is kept (`seen_titles` is the accumulator). -/
def dedupScan : List Rec → List Str → List Rec
  | [], _ => []
  | r :: rest, seen =>
    let k := normTitle r.title
    if k = [] then dedupScan rest seen
    else if k ∈ seen then dedupScan rest seen
    else r :: dedupScan rest (k :: seen)

/-- Embeds `UnifiedSearchManager._merge_and_deduplicate`. -/
def mergeAndDeduplicate (l : List Rec) : List Rec :=
  dedupScan (sortByPriority l) []

/-- Embeds `UnifiedSearchManager.calculate_score`: split the lowered query on
whitespace; each term adds 100 if it occurs in the lowered title, else 10 if
it occurs in the lowered abstract, else 0. -/
def calculateScore (paper : Rec) (query : Str) : Nat :=
  if query = [] then 0
  else
    let terms := splitWs (toLowerL query)
    let titleLower := toLowerL paper.title
    let abstractLower := toLowerL paper.abstract
    terms.foldl
      (fun score t =>
        if isSub t titleLower then score + 100
        else if isSub t abstractLower then score + 10
        else score) 0

/-- Greedily consume a digit group as CPython's float parser does, allowing a
single underscore between two digits (`\d(_?\d)*`).  `prev` records whether
the previous character was a digit (an underscore is only allowed there).
Returns the consumed digits (underscores removed) and the remainder. -/
def takeDigitsU : Bool → Str → Str × Str
  | _, [] => ([], [])
  | prev, c :: cs =>
    if c.isDigit then
      let r := takeDigitsU true cs
      (c :: r.1, r.2)
    else if prev ∧ c = '_' then
      match cs with
      | [] => ([], [c])
      | c' :: cs' =>
        if c'.isDigit then
          let r := takeDigitsU true cs'
          (c' :: r.1, r.2)
        else ([], c :: cs)
    else ([], c :: cs)

/-- Strip leading and trailing whitespace, as `float(...)` does. -/
def stripBoth (s : Str) : Str :=
  ((s.dropWhile Char.isWhitespace).reverse.dropWhile Char.isWhitespace).reverse

/-- Optional leading sign; returns (isNegative, rest). -/
def parseSign : Str → Bool × Str
  | [] => (false, [])
  | c :: cs =>
    if c = '-' then (true, cs)
    else if c = '+' then (false, cs)
    else (false, c :: cs)

/-- Numeric value of a digit string. -/
def natOfDigits (ds : Str) : Nat := ds.foldl (fun n c => n * 10 + (c.toNat - 48)) 0

/-- Optional exponent part followed by end of input: `(e|E)[sign]digits`. -/
def parseExp : Str → Option Int
  | [] => some 0
  | c :: cs =>
    if c = 'e' ∨ c = 'E' then
      let sgn := parseSign cs
      let eds := takeDigitsU false sgn.2
      if eds.1 = [] ∨ eds.2 ≠ [] then none
      else some (if sgn.1 then -(natOfDigits eds.1 : Int) else (natOfDigits eds.1 : Int))
    else none

/-- The value 2^1024, the IEEE-754 double overflow threshold, as a numeral
(so that it needs no reduction). -/
def pow2_1024 : Nat := 179769313486231590772930519078902473361797697894230657273430081157732675805500963132708477322407536021120113879871393357658789768814416622492847430639474124377767893424865485276302219601246094119453082952085005768838150682342462881473913110540827237163350510684586298239947245938479716304835356329624224137216

/-- The composite `int(float(str(x)))` used by `_extract_year`, as a partial
function: `none` models a raised exception (unparsable text, or an
infinity/NaN, on which `int()` raises).  The decimal value is modelled
exactly and truncated toward zero, which is `int()`'s behaviour; CPython's
binary-float rounding can move the truncation only beyond 15 significant
digits, far outside the 4-digit-year behaviours proved below.  Magnitudes at
or beyond 2^1024 overflow `float` to infinity, so they also yield `none`. -/
def pyIntFloat (s : Str) : Option Int :=
  let t := stripBoth s
  let sgn := parseSign t
  let uLow := toLowerL sgn.2
  if uLow = "inf".data ∨ uLow = "infinity".data ∨ uLow = "nan".data then none
  else
    let ip := takeDigitsU false sgn.2
    let fp : Str × Str :=
      if ip.2.head? = some '.' then takeDigitsU false ip.2.tail
      else ([], ip.2)
    if ip.1 = [] ∧ fp.1 = [] then none
    else
      match parseExp fp.2 with
      | none => none
      | some e =>
        let a := natOfDigits (ip.1 ++ fp.1)
        let fl : Int := (fp.1.length : Int)
        let mag := a * 10 ^ ((e - fl).toNat) / 10 ^ ((fl - e).toNat)
        if pow2_1024 ≤ mag then none
        else some (if sgn.1 then -(mag : Int) else (mag : Int))

/-- Embeds the regex search for four digits of `_extract_year`: the four
characters at the first position where
four consecutive digits occur. -/
def firstFourDigits : Str → Option Str
  | a :: b :: c :: d :: rest =>
    if a.isDigit ∧ b.isDigit ∧ c.isDigit ∧ d.isDigit then some [a, b, c, d]
    else firstFourDigits (b :: c :: d :: rest)
  | _ => none

/-- Decimal digits of a natural number (fuel-based so that it reduces in the
kernel; the fuel `n + 1` always suffices). -/
def natDigsAux : Nat → Nat → Str → Str
  | 0, _, acc => acc
  | fuel + 1, n, acc =>
    if n < 10 then Char.ofNat (48 + n) :: acc
    else natDigsAux fuel (n / 10) (Char.ofNat (48 + n % 10) :: acc)

def natDigs (n : Nat) : Str := natDigsAux (n + 1) n []

/-- Python `str(...)` of an `int`. -/
def intToStr (n : Int) : Str :=
  if n < 0 then '-' :: natDigs n.natAbs else natDigs n.natAbs

/-- Embeds `UnifiedSearchManager._extract_year`: falsy input gives "N/A"; then
`str(int(float(...)))`; on exception, the first four consecutive digits;
else "N/A". -/
def extractYear (s : Str) : Str :=
  if s = [] then "N/A".data
  else
    match pyIntFloat s with
    | some n => intToStr n
    | none =>
      match firstFourDigits s with
      | some ds => ds
      | none => "N/A".data

/-- Strict-on-ties lexicographic comparison of character lists, modelling
Python `str` comparison inside tuple `sorted(...)`. -/
def lexLe : Str → Str → Bool
  | [], _ => true
  | _ :: _, [] => false
  | a :: xs, b :: ys => if a < b then true else if a = b then lexLe xs ys else false

/-- Python tuple comparison on `(position, word)` pairs. -/
def posWordLe (p q : Nat × Str) : Bool :=
  decide (p.1 < q.1 ∨ (p.1 = q.1 ∧ lexLe p.2 q.2 = true))

/-- Stable insertion sort: `x` is inserted after every element strictly
smaller under `le`, and before the first element not smaller, so elements
comparing equal keep their original relative order.  This is extensionally
Python's stable `list.sort`/`sorted` for the comparator `le`. -/
def insertOrd {α : Type} (le : α → α → Bool) (x : α) : List α → List α
  | [] => [x]
  | y :: ys => if le y x ∧ ¬ le x y then y :: insertOrd le x ys else x :: y :: ys

def insSort {α : Type} (le : α → α → Bool) : List α → List α
  | [] => []
  | x :: xs => insertOrd le x (insSort le xs)

/-- Decoding of an OpenAlex `abstract_inverted_index`, as in `_parse` and
`_enrich_missing_data`: flatten `(word, positions)` into `(position, word)`
pairs, sort them, and join the words with spaces. -/
def decodeIdx (idx : List (Str × List Nat)) : Str :=
  let pairs := (idx.map (fun wp => wp.2.map (fun p => (p, wp.1)))).flatten
  List.intercalate [' '] ((insSort posWordLe pairs).map (fun pw => pw.2))

/-- The fields of a successful (HTTP 200, well-formed JSON) OpenAlex
per-record lookup used by `_enrich_missing_data`:
`abstract_inverted_index` (absent models a missing key), the
`open_access.oa_url` chain (absent models the "N/A" default), and
`cited_by_count` (with the `.get(..., 0)` default already applied). -/
structure LookupData where
  abstractIdx : Option (List (Str × List Nat))
  oaUrl : Option Str
  citedByCount : Int

/-- The per-record body of `UnifiedSearchManager._enrich_missing_data`.
`lookup r = none` models every failure of the secondary network call:
a raised exception (caught by the bare `except`) or a non-200 status. -/
def enrichRec (lookup : Rec → Option LookupData) (r : Rec) : Rec :=
  let needsAbstract := r.abstract.length < 50
  let needsCitations := r.citations = some 0
  if (needsAbstract ∨ needsCitations) ∧ r.doi.isSome then
    match lookup r with
    | none => r
    | some d =>
      let r1 :=
        if needsAbstract then
          match d.abstractIdx with
          | some idx => { r with abstract := decodeIdx idx ++ " [Enriched]".data }
          | none => r
        else r
      let r2 :=
        if r1.pdfUrl = "N/A".data then { r1 with pdfUrl := d.oaUrl.getD "N/A".data }
        else r1
      if needsCitations then { r2 with citations := some d.citedByCount } else r2
  else r

/-- Embeds `UnifiedSearchManager._enrich_missing_data`: each record is looked up and
repaired independently. -/
def enrichMissingData (lookup : Rec → Option LookupData) (results : List Rec) : List Rec :=
  results.map (enrichRec lookup)

/-- The per-record part of the scoring loop in `search_all`:
`paper['year'] = _extract_year(...)`, `paper['relevance_score'] = calculate_score(...)`,
and `if not isinstance(cites, int): paper['citations'] = 0`. -/
def rankStep (term : Str) (r : Rec) : Rec :=
  let r1 := { r with year := extractYear r.year }
  let r2 := { r1 with relevance := calculateScore r1 term }
  match r2.citations with
  | some _ => r2
  | none => { r2 with citations := some 0 }

/-- The sort key `(-relevance_score, -citations)` of the final
`enriched.sort(...)`.  By the time the sort runs, `citations` is always
`some`, so `getD 0` reads exactly the stored integer. -/
def rankKey (r : Rec) : Int × Int :=
  (-(r.relevance : Int), -(r.citations.getD 0))

/-- Ascending comparison of the sort keys (Python tuple comparison). -/
def rankLe (a b : Rec) : Bool :=
  decide ((rankKey a).1 < (rankKey b).1 ∨
    ((rankKey a).1 = (rankKey b).1 ∧ (rankKey a).2 ≤ (rankKey b).2))

/-- The tail of `search_all` from the collected raw results on:
merge/deduplicate, enrich, normalize year + score + coerce citations, and the
final stable sort by `(-relevance_score, -citations)`. -/
def searchAllFromResults (term : Str) (lookup : Rec → Option LookupData)
    (allResults : List Rec) : List Rec :=
  let merged := mergeAndDeduplicate allResults
  let enriched := enrichMissingData lookup merged
  let processed := enriched.map (rankStep term)
  insSort rankLe processed

/-- The `as_completed` collection loop of `search_all`: each adapter call
either raises (outcome `none`, swallowed by `except Exception: pass`) or
returns a batch of records (outcome `some batch`); the surviving batches are
concatenated in completion order. -/
def collectResults (outcomes : List (Option (List Rec))) : List Rec :=
  (outcomes.filterMap id).flatten

def searchAllFromOutcomes (term : Str) (lookup : Rec → Option LookupData)
    (outcomes : List (Option (List Rec))) : List Rec :=
  searchAllFromResults term lookup (collectResults outcomes)

/-- An adapter as `search_all` consumes it: called with the query term, the
effective start year, the per-source limit and the open-access flag, it
either raises (`none`) or returns its batch.  (The name-to-client resolution
of `self.clients` is elided: `adapters` is the list of resolved active
clients in submission order.) -/
abbrev Adapter := Str → Int → Nat → Bool → Option (List Rec)

/-- Embeds `if start_year is None: start_year = get_current_year() - 10`. -/
def effectiveStartYear (currentYear : Int) (startYear : Option Int) : Int :=
  startYear.getD (currentYear - 10)

/-- Embeds `UnifiedSearchManager.search_all` (ncbi_client.py).  `get_current_year()`
is an ambient input, modelled as the explicit `currentYear` argument.  The
adapter batches are collected here in submission order; independence from the
actual completion order is proved separately. -/
def searchAll (term : Str) (currentYear : Int) (adapters : List Adapter)
    (startYear : Option Int) (limitPerSource : Nat) (onlyFree : Bool)
    (lookup : Rec → Option LookupData) : List Rec :=
  let sy := effectiveStartYear currentYear startYear
  searchAllFromOutcomes term lookup
    (adapters.map (fun a => a term sy limitPerSource onlyFree))

/- Properties of the stable bucket sort -/

theorem bucketSort_succ {α : Type} (key : α → Nat) (n : Nat) (l : List α) :
    bucketSort key (n + 1) l = bucketSort key n l ++ l.filter (fun x => key x = n) := by
  simp [bucketSort, List.range_succ]

theorem bucketSort_zero {α : Type} (key : α → Nat) (l : List α) :
    bucketSort key 0 l = [] := by
  simp [bucketSort]

theorem bucketSort_of_ge {α : Type} (key : α → Nat) (n : Nat) (l : List α)
    (h : ∀ x ∈ l, n ≤ key x) : bucketSort key n l = [] := by
  induction n with
  | zero => exact bucketSort_zero key l
  | succ m ih =>
    rw [bucketSort_succ]
    have h1 : bucketSort key m l = [] := ih (fun x hx => Nat.le_of_succ_le (h x hx))
    have h2 : l.filter (fun x => key x = m) = [] := by
      rw [List.filter_eq_nil_iff]
      intro x hx
      have := h x hx
      simp only [decide_eq_true_eq]
      omega
    rw [h1, h2]
    rfl

theorem bucketSort_single {α : Type} (key : α → Nat) (n : Nat) (a : α) :
    bucketSort key n [a] = if key a < n then [a] else [] := by
  induction n with
  | zero => simp [bucketSort_zero]
  | succ m ih =>
    rw [bucketSort_succ, ih]
    by_cases h : key a = m
    · have : ¬ key a < m := by omega
      simp [this, h]
    · by_cases h2 : key a < m
      · have : key a < m + 1 := by omega
        simp [this, h2, h]
      · have : ¬ key a < m + 1 := by omega
        simp [this, h2, h]

theorem bucketSort_append_split {α : Type} (key : α → Nat) (n m : Nat)
    (l₁ l₂ : List α) (h₁ : ∀ x ∈ l₁, key x < m) (h₂ : ∀ y ∈ l₂, m ≤ key y) :
    bucketSort key n (l₁ ++ l₂) = bucketSort key n l₁ ++ bucketSort key n l₂ := by
  induction n with
  | zero => simp [bucketSort_zero]
  | succ p ih =>
    rw [bucketSort_succ, bucketSort_succ, bucketSort_succ, ih, List.filter_append]
    by_cases hp : p < m
    · have e2 : bucketSort key p l₂ = [] :=
        bucketSort_of_ge key p l₂ (fun y hy => by have := h₂ y hy; omega)
      have e3 : l₂.filter (fun x => key x = p) = [] := by
        rw [List.filter_eq_nil_iff]
        intro y hy
        have := h₂ y hy
        simp only [decide_eq_true_eq]
        omega
      rw [e2, e3]
      simp
    · have e1 : l₁.filter (fun x => key x = p) = [] := by
        rw [List.filter_eq_nil_iff]
        intro x hx
        have := h₁ x hx
        simp only [decide_eq_true_eq]
        omega
      rw [e1]
      simp

theorem bucketSort_append_swap {α : Type} (key : α → Nat) (n m : Nat)
    (l₁ l₂ : List α) (h₁ : ∀ x ∈ l₁, m ≤ key x) (h₂ : ∀ y ∈ l₂, key y < m) :
    bucketSort key n (l₁ ++ l₂) = bucketSort key n l₂ ++ bucketSort key n l₁ := by
  induction n with
  | zero => simp [bucketSort_zero]
  | succ p ih =>
    rw [bucketSort_succ, bucketSort_succ, bucketSort_succ, ih, List.filter_append]
    by_cases hp : p < m
    · have e1 : bucketSort key p l₁ = [] :=
        bucketSort_of_ge key p l₁ (fun x hx => by have := h₁ x hx; omega)
      have e2 : l₁.filter (fun x => key x = p) = [] := by
        rw [List.filter_eq_nil_iff]
        intro x hx
        have := h₁ x hx
        simp only [decide_eq_true_eq]
        omega
      rw [e1, e2]
      simp
    · have e3 : l₂.filter (fun x => key x = p) = [] := by
        rw [List.filter_eq_nil_iff]
        intro y hy
        have := h₂ y hy
        simp only [decide_eq_true_eq]
        omega
      rw [e3]
      simp

theorem bucketSort_const {α : Type} (key : α → Nat) (n p : Nat) (l : List α)
    (h : ∀ x ∈ l, key x = p) (hp : p < n) : bucketSort key n l = l := by
  induction n with
  | zero => omega
  | succ m ih =>
    rw [bucketSort_succ]
    by_cases hpm : p = m
    · have e1 : bucketSort key m l = [] :=
        bucketSort_of_ge key m l (fun x hx => by rw [h x hx, hpm])
      have e2 : l.filter (fun x => key x = m) = l := by
        rw [List.filter_eq_self]
        intro x hx
        simp only [decide_eq_true_eq]
        rw [h x hx, hpm]
      rw [e1, e2]
      rfl
    · have hlt : p < m := by omega
      have e2 : l.filter (fun x => key x = m) = [] := by
        rw [List.filter_eq_nil_iff]
        intro x hx
        simp only [decide_eq_true_eq]
        rw [h x hx]
        omega
      rw [ih hlt, e2, List.append_nil]

theorem count_bucketSort {α : Type} [DecidableEq α] (key : α → Nat) (n : Nat)
    (l : List α) (hn : ∀ x ∈ l, key x < n) (a : α) :
    (bucketSort key n l).count a = l.count a := by
  by_cases hmem : a ∈ l
  · have hka : key a < n := hn a hmem
    rw [bucketSort, List.count_flatten, List.map_map]
    have hmap : (List.range n).map (List.count a ∘ fun p => l.filter (fun x => key x = p))
        = (List.range n).map (fun p => if key a = p then l.count a else 0) := by
      apply List.map_congr_left
      intro p _
      simp only [Function.comp_apply]
      by_cases hp : key a = p
      · rw [if_pos hp]
        exact List.count_filter (by simp [hp])
      · rw [if_neg hp, List.count_eq_zero]
        intro hmf
        exact hp (by simpa using (List.mem_filter.mp hmf).2)
    rw [hmap]
    clear hmap hmem hn
    induction n with
    | zero => omega
    | succ m ih =>
      rw [List.range_succ, List.map_append, List.sum_append]
      by_cases he : key a = m
      · have e0 : ((List.range m).map (fun p => if key a = p then l.count a else 0)).sum = 0 := by
          apply List.sum_eq_zero
          intro x hx
          rcases List.mem_map.mp hx with ⟨p, hp, hpx⟩
          have : p < m := List.mem_range.mp hp
          rw [← hpx, if_neg (by omega)]
        rw [e0]
        simp [he]
      · have hlt : key a < m := by omega
        rw [ih hlt]
        simp [he]
  · rw [List.count_eq_zero.mpr hmem, List.count_eq_zero]
    intro hmf
    have : a ∈ l := by
      have := List.mem_flatten.mp hmf
      rcases this with ⟨b, hb, hab⟩
      rcases List.mem_map.mp hb with ⟨p, _, hpb⟩
      rw [← hpb] at hab
      exact (List.mem_filter.mp hab).1
    exact hmem this

theorem bucketSort_perm {α : Type} [DecidableEq α] (key : α → Nat) (n : Nat)
    (l : List α) (hn : ∀ x ∈ l, key x < n) : (bucketSort key n l).Perm l := by
  rw [List.perm_iff_count]
  intro a
  exact count_bucketSort key n l hn a

theorem idxOf_lt_length (s : Str) (l : List Str) (h : s ∈ l) :
    idxOf s l < l.length := by
  induction l with
  | nil => simp at h
  | cons t ts ih =>
    rw [idxOf]
    by_cases ht : t = s
    · simp [ht]
    · rcases List.mem_cons.mp h with he | hm
      · exact absurd he.symm ht
      · have := ih hm
        simp only [if_neg ht, List.length_cons]
        omega

theorem idxOf_ne_of_ne (a b : Str) (l : List Str) (ha : a ∈ l) (hb : b ∈ l)
    (hab : a ≠ b) : idxOf a l ≠ idxOf b l := by
  induction l with
  | nil => simp at ha
  | cons t ts ih =>
    rw [idxOf, idxOf]
    by_cases hta : t = a
    · have htb : ¬ t = b := fun h => hab (hta ▸ h)
      rw [if_pos hta, if_neg htb]
      omega
    · by_cases htb : t = b
      · rw [if_neg hta, if_pos htb]
        omega
      · have ha' : a ∈ ts := by
          rcases List.mem_cons.mp ha with he | hm
          · exact absurd he.symm hta
          · exact hm
        have hb' : b ∈ ts := by
          rcases List.mem_cons.mp hb with he | hm
          · exact absurd he.symm htb
          · exact hm
        have := ih ha' hb'
        simp only [if_neg hta, if_neg htb]
        omega

theorem getPriority_lt_100 (r : Rec) : getPriority r < 100 := by
  rw [getPriority]
  split
  · have h := idxOf_lt_length r.source priorityOrder (by assumption)
    have h5 : priorityOrder.length = 5 := by rfl
    omega
  · omega

theorem sortByPriority_pair (a b : Rec) :
    sortByPriority [a, b] =
      if getPriority a ≤ getPriority b then [a, b] else [b, a] := by
  have ha := getPriority_lt_100 a
  have hb := getPriority_lt_100 b
  rcases Nat.lt_trichotomy (getPriority a) (getPriority b) with hlt | heq | hgt
  · rw [if_pos (Nat.le_of_lt hlt)]
    have : ([a, b] : List Rec) = [a] ++ [b] := rfl
    rw [sortByPriority, this,
      bucketSort_append_split getPriority 100 (getPriority b) [a] [b]
        (by intro x hx; simp at hx; rw [hx]; exact hlt)
        (by intro y hy; simp at hy; rw [hy]),
      bucketSort_single, bucketSort_single, if_pos ha, if_pos hb]
  · rw [if_pos (Nat.le_of_eq heq)]
    refine bucketSort_const getPriority 100 (getPriority b) [a, b] ?_ hb
    intro x hx
    simp at hx
    rcases hx with h | h
    · rw [h]
      exact heq
    · rw [h]
  · rw [if_neg (by omega)]
    have : ([a, b] : List Rec) = [a] ++ [b] := rfl
    rw [sortByPriority, this,
      bucketSort_append_swap getPriority 100 (getPriority a) [a] [b]
        (by intro x hx; simp at hx; rw [hx])
        (by intro y hy; simp at hy; rw [hy]; exact hgt),
      bucketSort_single, bucketSort_single, if_pos ha, if_pos hb]
    rfl

/- Properties of the deduplication scan -/

theorem dedupScan_mem {l : List Rec} {seen : List Str} {r : Rec}
    (h : r ∈ dedupScan l seen) :
    r ∈ l ∧ normTitle r.title ≠ [] ∧ normTitle r.title ∉ seen := by
  induction l generalizing seen with
  | nil => simp [dedupScan] at h
  | cons x rest ih =>
    rw [dedupScan] at h
    by_cases h1 : normTitle x.title = []
    · rw [if_pos h1] at h
      have := ih h
      exact ⟨List.mem_cons_of_mem x this.1, this.2.1, this.2.2⟩
    · rw [if_neg h1] at h
      by_cases h2 : normTitle x.title ∈ seen
      · rw [if_pos h2] at h
        have := ih h
        exact ⟨List.mem_cons_of_mem x this.1, this.2.1, this.2.2⟩
      · rw [if_neg h2] at h
        rcases List.mem_cons.mp h with he | ht
        · rw [he]
          exact ⟨List.mem_cons_self x rest, h1, h2⟩
        · have := ih ht
          refine ⟨List.mem_cons_of_mem x this.1, this.2.1, ?_⟩
          intro hc
          exact this.2.2 (List.mem_cons_of_mem _ hc)

theorem dedupScan_countP_seen (l : List Rec) (seen : List Str) (k : Str)
    (hk : k ∈ seen) :
    (dedupScan l seen).countP (fun r => normTitle r.title == k) = 0 := by
  rw [List.countP_eq_zero]
  intro r hr
  have := (dedupScan_mem hr).2.2
  simp only [beq_iff_eq]
  intro he
  rw [he] at this
  exact this hk

theorem dedupScan_countP_new (l : List Rec) (seen : List Str) (k : Str)
    (hk : k ≠ []) (hs : k ∉ seen) :
    (dedupScan l seen).countP (fun r => normTitle r.title == k)
      = if l.countP (fun r => normTitle r.title == k) = 0 then 0 else 1 := by
  induction l generalizing seen with
  | nil => simp [dedupScan]
  | cons x rest ih =>
    rw [dedupScan, List.countP_cons]
    by_cases h1 : normTitle x.title = []
    · have hne : ¬ (normTitle x.title == k) = true := by
        simp only [beq_iff_eq]
        intro he
        exact hk (by rw [← he, h1])
      rw [if_pos h1, if_neg hne, ih seen hs]
      simp
    · by_cases h2 : normTitle x.title ∈ seen
      · have hne : ¬ (normTitle x.title == k) = true := by
          simp only [beq_iff_eq]
          intro he
          rw [he] at h2
          exact hs h2
        rw [if_neg h1, if_pos h2, if_neg hne, ih seen hs]
        simp
      · rw [if_neg h1, if_neg h2, List.countP_cons]
        by_cases h3 : normTitle x.title = k
        · have hb : (normTitle x.title == k) = true := by simpa using h3
          have hzero : (dedupScan rest (normTitle x.title :: seen)).countP
              (fun r => normTitle r.title == k) = 0 :=
            dedupScan_countP_seen rest _ k (by rw [h3]; exact List.mem_cons_self k seen)
          rw [hzero, hb]
          simp
        · have hb : ¬ (normTitle x.title == k) = true := by simpa using h3
          have hs' : k ∉ normTitle x.title :: seen := by
            intro hc
            rcases List.mem_cons.mp hc with he | ht
            · exact h3 he.symm
            · exact hs ht
          rw [if_neg hb, ih _ hs']
          simp

/- Properties of the stable insertion sort -/

theorem mem_insertOrd {α : Type} (le : α → α → Bool) (x a : α) (l : List α) :
    a ∈ insertOrd le x l ↔ a = x ∨ a ∈ l := by
  induction l with
  | nil => simp [insertOrd]
  | cons y ys ih =>
    rw [insertOrd]
    by_cases hc : le y x = true ∧ ¬ le x y = true
    · rw [if_pos hc]
      
      constructor
      · intro h
        rcases List.mem_cons.mp h with he | hm
        · exact Or.inr (by rw [he]; exact List.mem_cons_self y ys)
        · rcases ih.mp hm with h1 | h1
          · exact Or.inl h1
          · exact Or.inr (List.mem_cons_of_mem y h1)
      · intro h
        rcases h with h1 | h1
        · exact List.mem_cons_of_mem y (ih.mpr (Or.inl h1))
        · rcases List.mem_cons.mp h1 with he | hm
          · rw [he]; exact List.mem_cons_self y _
          · exact List.mem_cons_of_mem y (ih.mpr (Or.inr hm))
    · rw [if_neg hc]
      simp [List.mem_cons]

theorem mem_insSort {α : Type} (le : α → α → Bool) (a : α) (l : List α) :
    a ∈ insSort le l ↔ a ∈ l := by
  induction l with
  | nil => simp [insSort]
  | cons x xs ih =>
    rw [insSort, mem_insertOrd]
    simp [List.mem_cons, ih]

theorem pairwise_insertOrd {α : Type} (le : α → α → Bool)
    (htrans : ∀ a b c, le a b = true → le b c = true → le a c = true)
    (htot : ∀ a b, le a b = true ∨ le b a = true) (x : α) (l : List α)
    (h : l.Pairwise (fun a b => le a b = true)) :
    (insertOrd le x l).Pairwise (fun a b => le a b = true) := by
  induction l with
  | nil => simp [insertOrd]
  | cons y ys ih =>
    rw [List.pairwise_cons] at h
    rw [insertOrd]
    by_cases hc : le y x = true ∧ ¬ le x y = true
    · rw [if_pos hc]
      rw [List.pairwise_cons]
      constructor
      · intro a ha
        rcases (mem_insertOrd le x a ys).mp ha with he | hm
        · rw [he]; exact hc.1
        · exact h.1 a hm
      · exact ih h.2
    · rw [if_neg hc]
      have hxy : le x y = true := by
        rcases htot x y with h1 | h1
        · exact h1
        · by_cases h2 : le x y = true
          · exact h2
          · exact absurd ⟨h1, h2⟩ hc
      rw [List.pairwise_cons]
      constructor
      · intro a ha
        rcases List.mem_cons.mp ha with he | hm
        · rw [he]; exact hxy
        · exact htrans x y a hxy (h.1 a hm)
      · exact List.pairwise_cons.mpr h

theorem pairwise_insSort {α : Type} (le : α → α → Bool)
    (htrans : ∀ a b c, le a b = true → le b c = true → le a c = true)
    (htot : ∀ a b, le a b = true ∨ le b a = true) (l : List α) :
    (insSort le l).Pairwise (fun a b => le a b = true) := by
  induction l with
  | nil => simp [insSort]
  | cons x xs ih => exact pairwise_insertOrd le htrans htot x _ ih

theorem rankLe_trans (a b c : Rec) (h1 : rankLe a b = true) (h2 : rankLe b c = true) :
    rankLe a c = true := by
  simp only [rankLe, decide_eq_true_eq] at h1 h2 ⊢
  rcases h1 with h1 | ⟨h1, h1'⟩ <;> rcases h2 with h2 | ⟨h2, h2'⟩
  · exact Or.inl (lt_trans h1 h2)
  · exact Or.inl (h2 ▸ h1)
  · exact Or.inl (h1 ▸ h2)
  · exact Or.inr ⟨h1.trans h2, le_trans h1' h2'⟩

theorem rankLe_total (a b : Rec) : rankLe a b = true ∨ rankLe b a = true := by
  simp only [rankLe, decide_eq_true_eq]
  rcases lt_trichotomy (rankKey a).1 (rankKey b).1 with h | h | h
  · exact Or.inl (Or.inl h)
  · rcases le_total (rankKey a).2 (rankKey b).2 with h' | h'
    · exact Or.inl (Or.inr ⟨h, h'⟩)
    · exact Or.inr (Or.inr ⟨h.symm, h'⟩)
  · exact Or.inr (Or.inl h)

/- Collection of adapter outcomes -/

theorem filterMap_id_filter_isSome {α : Type} (l : List (Option α)) :
    (l.filter (fun o => o.isSome)).filterMap id = l.filterMap id := by
  induction l with
  | nil => rfl
  | cons o rest ih =>
    cases o with
    | none => simpa using ih
    | some a => simpa using ih

/-- If all non-empty members of a list of lists coincide, its flattening is
invariant under permutation. -/
theorem flatten_eq_of_perm_sparse {α : Type} {L₁ L₂ : List (List α)}
    (hp : L₁.Perm L₂)
    (h : ∀ x ∈ L₂, ∀ y ∈ L₂, x ≠ [] → y ≠ [] → x = y) :
    L₁.flatten = L₂.flatten := by
  induction hp with
  | nil => rfl
  | cons x _ ih =>
    simp only [List.flatten_cons]
    rw [ih (fun u hu v hv => h u (List.mem_cons_of_mem x hu) v (List.mem_cons_of_mem x hv))]
  | swap x y l =>
    simp only [List.flatten_cons]
    by_cases hx : x = []
    · rw [hx]
      rfl
    · by_cases hy : y = []
      · rw [hy]
        rfl
      · have : y = x := h y (by simp) x (by simp) hy hx
        rw [this]
  | trans p₁ p₂ ih₁ ih₂ =>
    have h' : ∀ x ∈ _, ∀ y ∈ _, x ≠ [] → y ≠ [] → x = y := fun x hx y hy =>
      h x (p₂.mem_iff.mp hx) y (p₂.mem_iff.mp hy)
    rw [ih₁ h', ih₂ h]

/- Summation form of the relevance score -/

theorem foldl_add_sum {α : Type} (f : α → Nat) (l : List α) (acc : Nat) :
    l.foldl (fun a t => a + f t) acc = acc + (l.map f).sum := by
  induction l generalizing acc with
  | nil => simp
  | cons x xs ih =>
    rw [List.foldl_cons, ih, List.map_cons, List.sum_cons]
    omega

/- Lemmas about the year parser -/

theorem isDigit_ne (c d : Char) (hc : c.isDigit = true) (hd : d.isDigit = false) :
    c ≠ d := by
  intro h
  rw [h, hd] at hc
  exact Bool.noConfusion hc

theorem not_ws_of_digit (c : Char) (h : c.isDigit = true) :
    c.isWhitespace = false := by
  by_cases hw : c.isWhitespace = true
  · exfalso
    simp only [Char.isWhitespace, Bool.or_eq_true, decide_eq_true_eq] at hw
    rcases hw with ((h1 | h1) | h1) | h1 <;> rw [h1] at h <;> exact absurd h (by decide)
  · simpa using hw

theorem takeDigitsU_cons (prev : Bool) (c : Char) (cs : Str) :
    takeDigitsU prev (c :: cs) =
      if c.isDigit then
        let r := takeDigitsU true cs
        (c :: r.1, r.2)
      else if prev ∧ c = '_' then
        match cs with
        | [] => ([], [c])
        | c' :: cs' =>
          if c'.isDigit then
            let r := takeDigitsU true cs'
            (c' :: r.1, r.2)
          else ([], c :: cs)
      else ([], c :: cs) := by
  rw [takeDigitsU.eq_def]
  rfl

theorem takeDigitsU_stop (prev : Bool) (c : Char) (cs : Str)
    (h1 : c.isDigit = false) (h2 : c ≠ '_') :
    takeDigitsU prev (c :: cs) = ([], c :: cs) := by
  rw [takeDigitsU_cons, h1]
  simp only [Bool.false_eq_true, if_false]
  rw [if_neg (fun hc => h2 hc.2)]

theorem takeDigitsU_no_digits (prev : Bool) (l : Str)
    (h : ∀ c ∈ l, c.isDigit = false) : takeDigitsU prev l = ([], l) := by
  cases l with
  | nil => rfl
  | cons c cs =>
    have hc := h c (List.mem_cons_self c cs)
    rw [takeDigitsU_cons, hc]
    simp only [Bool.false_eq_true, if_false]
    by_cases h2 : prev = true ∧ c = '_'
    · rw [if_pos h2]
      cases cs with
      | nil => rfl
      | cons c' cs' =>
        have hc' := h c' (List.mem_cons_of_mem c (List.mem_cons_self c' cs'))
        show (if c'.isDigit = true then
            let r := takeDigitsU true cs'
            (c' :: r.1, r.2)
          else ([], c :: c' :: cs')) = ([], c :: c' :: cs')
        rw [hc']
        simp
    · rw [if_neg h2]

theorem takeDigitsU_digits (ds rest : Str) (prev : Bool)
    (hd : ∀ c ∈ ds, c.isDigit = true)
    (hstop : ∀ p : Bool, takeDigitsU p rest = ([], rest)) :
    takeDigitsU prev (ds ++ rest) = (ds, rest) := by
  induction ds generalizing prev with
  | nil => simpa using hstop prev
  | cons c cs ih =>
    have hc := hd c (List.mem_cons_self c cs)
    rw [List.cons_append, takeDigitsU_cons, hc]
    simp only [if_true]
    rw [ih true (fun x hx => hd x (List.mem_cons_of_mem c hx))]

theorem mem_stripBoth {a : Char} {s : Str} (h : a ∈ stripBoth s) : a ∈ s := by
  rw [stripBoth, List.mem_reverse] at h
  have h2 := (List.dropWhile_sublist (l := (s.dropWhile Char.isWhitespace).reverse)
    Char.isWhitespace).mem h
  rw [List.mem_reverse] at h2
  exact (List.dropWhile_sublist (l := s) Char.isWhitespace).mem h2

theorem parseSign_snd_sub (t : Str) : ∀ a ∈ (parseSign t).2, a ∈ t := by
  cases t with
  | nil => intro a ha; simp [parseSign] at ha
  | cons c cs =>
    intro a ha
    rw [parseSign] at ha
    by_cases h1 : c = '-'
    · rw [if_pos h1] at ha
      exact List.mem_cons_of_mem c ha
    · rw [if_neg h1] at ha
      by_cases h2 : c = '+'
      · rw [if_pos h2] at ha
        exact List.mem_cons_of_mem c ha
      · rw [if_neg h2] at ha
        exact ha

theorem pyIntFloat_none_of_no_digits (s : Str)
    (h : ∀ c ∈ s, c.isDigit = false) : pyIntFloat s = none := by
  have hsub : ∀ c ∈ (parseSign (stripBoth s)).2, c.isDigit = false := by
    intro c hc
    exact h c (mem_stripBoth (parseSign_snd_sub (stripBoth s) c hc))
  simp only [pyIntFloat]
  by_cases hinf : toLowerL (parseSign (stripBoth s)).2 = "inf".data ∨
      toLowerL (parseSign (stripBoth s)).2 = "infinity".data ∨
      toLowerL (parseSign (stripBoth s)).2 = "nan".data
  · rw [if_pos hinf]
  · rw [if_neg hinf]
    rw [takeDigitsU_no_digits false _ hsub]
    by_cases hdot : ((([] : Str), (parseSign (stripBoth s)).2).2.head? = some '.')
    · rw [if_pos hdot]
      rw [takeDigitsU_no_digits false _ (by
        intro c hc
        exact hsub c (List.tail_sublist _ |>.mem hc))]
      rw [if_pos ⟨rfl, rfl⟩]
    · rw [if_neg hdot]
      rw [if_pos ⟨rfl, rfl⟩]

theorem firstFourDigits_none_of_no_digits (s : Str)
    (h : ∀ c ∈ s, c.isDigit = false) : firstFourDigits s = none := by
  induction s with
  | nil => rfl
  | cons a rest ih =>
    cases rest with
    | nil => rfl
    | cons b rest2 =>
      cases rest2 with
      | nil => rfl
      | cons c rest3 =>
        cases rest3 with
        | nil => rfl
        | cons d rest4 =>
          have ha := h a (by simp)
          show (if a.isDigit ∧ b.isDigit ∧ c.isDigit ∧ d.isDigit
              then some [a, b, c, d]
              else firstFourDigits (b :: c :: d :: rest4)) = none
          rw [if_neg (by rw [ha]; simp)]
          exact ih (fun x hx => h x (List.mem_cons_of_mem a hx))

theorem dropWhile_append_cons (p : Char → Bool) (l₁ : Str) (c : Char) (l₂ : Str)
    (hc : p c = false) :
    (l₁ ++ c :: l₂).dropWhile p = l₁.dropWhile p ++ c :: l₂ := by
  induction l₁ with
  | nil =>
    simp only [List.nil_append, List.dropWhile_nil]
    rw [List.dropWhile_cons, hc]
    simp
  | cons x xs ih =>
    rw [List.cons_append, List.dropWhile_cons, List.dropWhile_cons]
    by_cases hx : p x = true
    · rw [hx]
      simp only [if_true]
      exact ih
    · have : p x = false := by simpa using hx
      rw [this]
      simp

theorem stripBoth_shape (a b c d : Char) (r : Str) (ha : a.isDigit = true) :
    stripBoth (a :: b :: c :: d :: '-' :: r)
      = a :: b :: c :: d :: '-' :: (r.reverse.dropWhile Char.isWhitespace).reverse := by
  have hws : Char.isWhitespace a = false := not_ws_of_digit a ha
  have h1 : (a :: b :: c :: d :: '-' :: r).dropWhile Char.isWhitespace
      = a :: b :: c :: d :: '-' :: r := by
    rw [List.dropWhile_cons, hws]
    simp
  have h2 : (a :: b :: c :: d :: '-' :: r).reverse = r.reverse ++ '-' :: [d, c, b, a] := by
    simp
  rw [stripBoth, h1, h2,
    dropWhile_append_cons Char.isWhitespace r.reverse '-' [d, c, b, a] (by decide)]
  simp

theorem pyIntFloat_four_digits_dash (a b c d : Char) (r : Str)
    (ha : a.isDigit = true) (hb : b.isDigit = true) (hc : c.isDigit = true)
    (hd : d.isDigit = true) :
    pyIntFloat (a :: b :: c :: d :: '-' :: r) = none := by
  simp only [pyIntFloat]
  rw [stripBoth_shape a b c d r ha]
  have hsign : parseSign (a :: b :: c :: d :: '-' ::
        (r.reverse.dropWhile Char.isWhitespace).reverse)
      = (false, a :: b :: c :: d :: '-' :: (r.reverse.dropWhile Char.isWhitespace).reverse) := by
    rw [parseSign]
    rw [if_neg (isDigit_ne a '-' ha (by decide)), if_neg (isDigit_ne a '+' ha (by decide))]
  rw [hsign]
  have hinf : ¬ (toLowerL (a :: b :: c :: d :: '-' ::
        (r.reverse.dropWhile Char.isWhitespace).reverse) = "inf".data ∨
      toLowerL (a :: b :: c :: d :: '-' ::
        (r.reverse.dropWhile Char.isWhitespace).reverse) = "infinity".data ∨
      toLowerL (a :: b :: c :: d :: '-' ::
        (r.reverse.dropWhile Char.isWhitespace).reverse) = "nan".data) := by
    intro hor
    rcases hor with h | h | h
    · simp [toLowerL] at h
    · simp only [toLowerL, List.map_cons, List.cons.injEq] at h
      exact absurd h.2.2.2.2.1 (by decide)
    · simp [toLowerL] at h
  rw [if_neg hinf]
  have hstop4 : ∀ p : Bool, takeDigitsU p ('-' ::
        (r.reverse.dropWhile Char.isWhitespace).reverse)
      = ([], '-' :: (r.reverse.dropWhile Char.isWhitespace).reverse) :=
    fun p => takeDigitsU_stop p '-' _ (by decide) (by decide)
  have hdig : takeDigitsU false (a :: b :: c :: d :: '-' ::
        (r.reverse.dropWhile Char.isWhitespace).reverse)
      = ([a, b, c, d], '-' :: (r.reverse.dropWhile Char.isWhitespace).reverse) := by
    have hall : ∀ x ∈ [a, b, c, d], x.isDigit = true := by
      intro x hx
      simp only [List.mem_cons, List.not_mem_nil, or_false] at hx
      rcases hx with hx | hx | hx | hx <;> rw [hx] <;> assumption
    have := takeDigitsU_digits [a, b, c, d]
      ('-' :: (r.reverse.dropWhile Char.isWhitespace).reverse) false hall hstop4
    simpa using this
  rw [hdig]
  rw [if_neg (by simp)]
  rw [if_neg (by simp)]
  have hexp : parseExp ('-' :: (r.reverse.dropWhile Char.isWhitespace).reverse) = none := by
    rw [parseExp]
    rw [if_neg (by decide)]
  rw [hexp]

theorem extractYear_eq (s : Str) :
    extractYear s =
      if s = [] then "N/A".data
      else
        match pyIntFloat s with
        | some n => intToStr n
        | none =>
          match firstFourDigits s with
          | some ds => ds
          | none => "N/A".data := rfl

theorem extractYear_four_digits_dash (a b c d : Char) (r : Str)
    (ha : a.isDigit = true) (hb : b.isDigit = true) (hc : c.isDigit = true)
    (hd : d.isDigit = true) :
    extractYear (a :: b :: c :: d :: '-' :: r) = [a, b, c, d] := by
  rw [extractYear_eq, if_neg (by simp),
    pyIntFloat_four_digits_dash a b c d r ha hb hc hd]
  show (match firstFourDigits (a :: b :: c :: d :: '-' :: r) with
    | some ds => ds
    | none => "N/A".data) = [a, b, c, d]
  have hff : firstFourDigits (a :: b :: c :: d :: '-' :: r) = some [a, b, c, d] := by
    show (if a.isDigit ∧ b.isDigit ∧ c.isDigit ∧ d.isDigit
        then some [a, b, c, d]
        else firstFourDigits (b :: c :: d :: '-' :: r)) = some [a, b, c, d]
    rw [if_pos ⟨ha, hb, hc, hd⟩]
  rw [hff]

theorem extractYear_no_digits (s : Str) (hne : s ≠ [])
    (h : ∀ c ∈ s, c.isDigit = false) : extractYear s = "N/A".data := by
  rw [extractYear_eq, if_neg hne, pyIntFloat_none_of_no_digits s h]
  show (match firstFourDigits s with
    | some ds => ds
    | none => "N/A".data) = "N/A".data
  rw [firstFourDigits_none_of_no_digits s h]

/- Lemmas about ranking and enrichment -/

theorem rankStep_citations (term : Str) (r : Rec) :
    (rankStep term r).citations = some (r.citations.getD 0) := by
  rw [rankStep]
  cases hc : r.citations with
  | none => simp [hc]
  | some n => simp [hc]

theorem mem_searchAllFromResults_citations (term : Str)
    (lookup : Rec → Option LookupData) (l : List Rec) (r : Rec)
    (h : r ∈ searchAllFromResults term lookup l) : r.citations.isSome = true := by
  rw [searchAllFromResults] at h
  rw [mem_insSort] at h
  rcases List.mem_map.mp h with ⟨r0, _, hr0⟩
  rw [← hr0, rankStep_citations]
  rfl

theorem dedupScan_pair (x y : Rec) (hk : normTitle y.title = normTitle x.title)
    (hnz : normTitle x.title ≠ []) : dedupScan [x, y] [] = [x] := by
  simp [dedupScan, hk, hnz]

theorem filterMap_filter_isSome {α β : Type} (f : α → Option β) (l : List α) :
    (l.filter (fun a => (f a).isSome)).filterMap f = l.filterMap f := by
  induction l with
  | nil => rfl
  | cons x xs ih =>
    rw [List.filter_cons]
    cases hf : f x with
    | none =>
      rw [List.filterMap_cons, hf]
      simpa [hf] using ih
    | some b =>
      rw [List.filterMap_cons, hf]
      simp only [hf, Option.isSome_some, if_true]
      rw [List.filterMap_cons, hf, ih]

theorem calculateScore_sum (paper : Rec) (query : Str) (hq : query ≠ []) :
    calculateScore paper query
      = ((splitWs (toLowerL query)).map
          (fun t =>
            if isSub t (toLowerL paper.title) = true then 100
            else if isSub t (toLowerL paper.abstract) = true then 10
            else 0)).sum := by
  rw [calculateScore, if_neg hq]
  have hfun : (fun (score : Nat) (t : Str) =>
        if isSub t (toLowerL paper.title) then score + 100
        else if isSub t (toLowerL paper.abstract) then score + 10
        else score)
      = (fun (score : Nat) (t : Str) => score +
          (if isSub t (toLowerL paper.title) = true then 100
           else if isSub t (toLowerL paper.abstract) = true then 10
           else 0)) := by
    funext score t
    by_cases h1 : isSub t (toLowerL paper.title) = true
    · simp [h1]
    · by_cases h2 : isSub t (toLowerL paper.abstract) = true
      · simp [h1, h2]
      · simp [h1, h2]
  show (splitWs (toLowerL query)).foldl
      (fun score t =>
        if isSub t (toLowerL paper.title) = true then score + 100
        else if isSub t (toLowerL paper.abstract) = true then score + 10
        else score) 0
    = _
  rw [hfun, foldl_add_sum]
  omega

theorem rankLe_imp (x y : Rec) (h : rankLe x y = true) :
    y.relevance < x.relevance
      ∨ (x.relevance = y.relevance ∧ y.citations.getD 0 ≤ x.citations.getD 0) := by
  simp only [rankLe, rankKey, decide_eq_true_eq] at h
  rcases h with h | ⟨h1, h2⟩
  · left
    omega
  · right
    constructor
    · omega
    · omega

/- Concrete fixtures used by counterexamples and witnesses -/

def recGoodPaper : Rec :=
  { source := "PubMed".data, title := "Good Paper".data, authors := [],
    journal := [], year := "2024".data, abstract := [], citations := some 0,
    url := [], pdfUrl := "N/A".data, doi := none, relevance := 0 }

def adapterFail : Adapter := fun _ _ _ _ => none

def adapterGood : Adapter := fun _ _ _ _ => some [recGoodPaper]

def recPaperHi : Rec :=
  { source := "PubMed".data, title := "Paper A".data, authors := [],
    journal := [], year := "2020".data, abstract := [], citations := some 3,
    url := [], pdfUrl := "N/A".data, doi := none, relevance := 0 }

def recPaperLo : Rec :=
  { source := "Semantic Scholar".data, title := "PAPER A!".data, authors := [],
    journal := [], year := "2021".data, abstract := [], citations := some 9,
    url := [], pdfUrl := "N/A".data, doi := none, relevance := 0 }

def recNoCite : Rec :=
  { source := "PubMed".data, title := "Mystery Paper".data, authors := [],
    journal := [], year := [], abstract := [], citations := none,
    url := [], pdfUrl := "N/A".data, doi := none, relevance := 0 }

def recLongAbs : Rec :=
  { source := "PubMed".data, title := "Long Paper".data, authors := [],
    journal := [], year := "2020".data,
    abstract := "This abstract is definitely long enough to pass the fifty character floor.".data,
    citations := some 0, url := [], pdfUrl := "N/A".data, doi := none,
    relevance := 0 }

def recCuring1 : Rec :=
  { source := "PubMed".data, title := "Curing Code Bugs".data, authors := [],
    journal := [], year := "2020".data, abstract := [], citations := some 0,
    url := [], pdfUrl := "N/A".data, doi := none, relevance := 0 }

def recCuring2 : Rec :=
  { source := "PLOS".data, title := "CURING CODE BUGS!".data, authors := [],
    journal := [], year := "2021".data, abstract := [], citations := some 0,
    url := [], pdfUrl := "N/A".data, doi := none, relevance := 0 }

def recScored : Rec :=
  { source := "PLOS".data, title := "Cancer treatment advances".data,
    authors := [], journal := [], year := "2020".data,
    abstract := "background material".data, citations := some 0, url := [],
    pdfUrl := "N/A".data, doi := none, relevance := 0 }

/- The claims -/

/-- C1: if at least one adapter raises (outcome `none`, swallowed by the
`except Exception: pass` of the collection loop) and at least one succeeds,
`search_all` does not fail, and its result equals the result of running the
pipeline on the succeeding adapters alone (their outputs concatenated, then
deduplicated, enriched and ranked).  In this embedding `searchAll` is a total
function, which is the "never raises" half of the claim. -/
theorem search_all_isolates_provider_failures
    (term : Str) (currentYear : Int) (adapters : List Adapter)
    (startYear : Option Int) (lim : Nat) (free : Bool)
    (lookup : Rec → Option LookupData)
    (_hfail : ∃ a ∈ adapters,
      a term (effectiveStartYear currentYear startYear) lim free = none)
    (_hok : ∃ a ∈ adapters,
      (a term (effectiveStartYear currentYear startYear) lim free).isSome = true) :
    searchAll term currentYear adapters startYear lim free lookup
      = searchAll term currentYear
          (adapters.filter
            (fun a => (a term (effectiveStartYear currentYear startYear) lim free).isSome))
          startYear lim free lookup := by
  simp only [searchAll, searchAllFromOutcomes, collectResults,
    List.filterMap_map, Function.comp_def, id_eq]
  rw [filterMap_filter_isSome]

/-- Witness for C1: one raising adapter, one succeeding adapter. -/
theorem search_all_isolates_provider_failures_witness :
    (∃ a ∈ [adapterFail, adapterGood],
      a "test".data (effectiveStartYear 2025 none) 5 false = none)
    ∧ (∃ a ∈ [adapterFail, adapterGood],
      (a "test".data (effectiveStartYear 2025 none) 5 false).isSome = true)
    ∧ searchAll "test".data 2025 [adapterFail, adapterGood] none 5 false (fun _ => none)
        = searchAll "test".data 2025
            ([adapterFail, adapterGood].filter
              (fun a => (a "test".data (effectiveStartYear 2025 none) 5 false).isSome))
            none 5 false (fun _ => none) :=
  ⟨⟨adapterFail, List.mem_cons_self _ _, rfl⟩,
   ⟨adapterGood, List.mem_cons_of_mem _ (List.mem_cons_self _ _), rfl⟩,
   search_all_isolates_provider_failures "test".data 2025 [adapterFail, adapterGood]
     none 5 false (fun _ => none)
     ⟨adapterFail, List.mem_cons_self _ _, rfl⟩
     ⟨adapterGood, List.mem_cons_of_mem _ (List.mem_cons_self _ _), rfl⟩⟩

/-- C2: for two records with the same non-empty normalized title, distinct
sources both in the configured priority list, `_merge_and_deduplicate` keeps
exactly the record of the higher-priority (lower-index) source, in either
input order. -/
theorem merge_pair_priority_wins (r1 r2 : Rec)
    (h1 : r1.source ∈ priorityOrder) (h2 : r2.source ∈ priorityOrder)
    (hne : r1.source ≠ r2.source)
    (hkey : normTitle r1.title = normTitle r2.title)
    (hnz : normTitle r1.title ≠ []) :
    mergeAndDeduplicate [r1, r2]
        = [if getPriority r1 < getPriority r2 then r1 else r2]
    ∧ mergeAndDeduplicate [r2, r1]
        = [if getPriority r1 < getPriority r2 then r1 else r2] := by
  have hpne : getPriority r1 ≠ getPriority r2 := by
    rw [getPriority, getPriority, if_pos h1, if_pos h2]
    exact idxOf_ne_of_ne r1.source r2.source priorityOrder h1 h2 hne
  have hnz2 : normTitle r2.title ≠ [] := by
    rw [← hkey]
    exact hnz
  rcases Nat.lt_or_ge (getPriority r1) (getPriority r2) with hlt | hge
  · rw [if_pos hlt]
    constructor
    · rw [mergeAndDeduplicate, sortByPriority_pair, if_pos (Nat.le_of_lt hlt)]
      exact dedupScan_pair r1 r2 hkey.symm hnz
    · rw [mergeAndDeduplicate, sortByPriority_pair, if_neg (by omega)]
      exact dedupScan_pair r1 r2 hkey.symm hnz
  · have hgt : getPriority r2 < getPriority r1 := by omega
    rw [if_neg (by omega)]
    constructor
    · rw [mergeAndDeduplicate, sortByPriority_pair, if_neg (by omega)]
      exact dedupScan_pair r2 r1 hkey hnz2
    · rw [mergeAndDeduplicate, sortByPriority_pair, if_pos (Nat.le_of_lt hgt)]
      exact dedupScan_pair r2 r1 hkey hnz2

/-- Witness for C2: the PubMed version of "Paper A" beats the
Semantic Scholar version "PAPER A!" in both input orders. -/
theorem merge_pair_priority_wins_witness :
    mergeAndDeduplicate [recPaperHi, recPaperLo]
        = [if getPriority recPaperHi < getPriority recPaperLo
           then recPaperHi else recPaperLo]
    ∧ mergeAndDeduplicate [recPaperLo, recPaperHi]
        = [if getPriority recPaperHi < getPriority recPaperLo
           then recPaperHi else recPaperLo] :=
  merge_pair_priority_wins recPaperHi recPaperLo (by decide) (by decide)
    (by decide) (by decide) (by decide)

/-- C3: the relevance score is the sum, over the lowercase whitespace-split
query terms, of 100 for a term occurring in the lowered title, else 10 for a
term occurring in the lowered abstract, else 0; every record returned by the
pipeline carries exactly that score in `relevance_score`; and the returned
list is sorted primarily by descending relevance score and secondarily by
descending citation count. -/
theorem relevance_score_formula_and_ranking :
    (∀ (paper : Rec) (query : Str), query ≠ [] →
      calculateScore paper query
        = ((splitWs (toLowerL query)).map
            (fun t =>
              if isSub t (toLowerL paper.title) = true then 100
              else if isSub t (toLowerL paper.abstract) = true then 10
              else 0)).sum)
    ∧ (∀ (term : Str) (lookup : Rec → Option LookupData) (l : List Rec),
        ∀ r ∈ searchAllFromResults term lookup l,
          r.relevance = calculateScore r term)
    ∧ (∀ (term : Str) (lookup : Rec → Option LookupData) (l : List Rec),
        (searchAllFromResults term lookup l).Pairwise
          (fun x y => y.relevance < x.relevance
            ∨ (x.relevance = y.relevance
               ∧ y.citations.getD 0 ≤ x.citations.getD 0))) := by
  have hrel : ∀ (term : Str) (r0 : Rec),
      (rankStep term r0).relevance = calculateScore (rankStep term r0) term := by
    intro term r0
    obtain ⟨src, tit, au, jo, yr, ab, cit, url, pdf, doi, rel⟩ := r0
    rw [rankStep]
    cases cit with
    | none => rfl
    | some n => rfl
  refine ⟨calculateScore_sum, ?_, ?_⟩
  · intro term lookup l r hr
    rw [searchAllFromResults, mem_insSort] at hr
    rcases List.mem_map.mp hr with ⟨r0, _, hr0⟩
    rw [← hr0]
    exact hrel term r0
  · intro term lookup l
    rw [searchAllFromResults]
    exact (pairwise_insSort rankLe rankLe_trans rankLe_total _).imp
      (fun h => rankLe_imp _ _ h)

/-- Witness for C3: a record with both query terms in the title scores
100 + 100, matching the summation form, and it keeps that score in the
pipeline output. -/
theorem relevance_score_formula_and_ranking_witness :
    (calculateScore recScored "cancer treatment".data
      = ((splitWs (toLowerL "cancer treatment".data)).map
          (fun t =>
            if isSub t (toLowerL recScored.title) = true then 100
            else if isSub t (toLowerL recScored.abstract) = true then 10
            else 0)).sum)
    ∧ (({ recScored with year := "2020".data, relevance := 200 } : Rec).relevance
        = calculateScore ({ recScored with year := "2020".data, relevance := 200 } : Rec)
            "cancer treatment".data) :=
  ⟨relevance_score_formula_and_ranking.1 recScored "cancer treatment".data (by decide),
   relevance_score_formula_and_ranking.2.1 "cancer treatment".data (fun _ => none)
     [recScored] _ (by decide)⟩

/-- C4 counterexample: the code's sentinel is "N/A", not "unknown" — the
empty raw value yields "N/A"; and on "a12345b", whose only digit run has
length five (so it contains no run of exactly four digits), the code still
returns the first four consecutive digits "1234". -/
theorem extract_year_counterexample :
    extractYear [] = "N/A".data
    ∧ "N/A".data ≠ "unknown".data
    ∧ extractYear ("a12345b".data) = "1234".data := by
  decide

/-- C4 amended: the year normalizer returns the truncated integer as a string
when the raw value parses as a float ("2015.0" becomes "2015"); otherwise the
first four consecutive digits of the text (any four digit characters followed
by a dash, as in "2020-05-01", become those four digits); otherwise the
sentinel "N/A" (the empty string and digit-free garbage give "N/A"). -/
theorem extract_year_amended :
    extractYear ("2015.0".data) = "2015".data
    ∧ (∀ (a b c d : Char) (r : Str), a.isDigit = true → b.isDigit = true →
        c.isDigit = true → d.isDigit = true →
        extractYear (a :: b :: c :: d :: '-' :: r) = [a, b, c, d])
    ∧ extractYear [] = "N/A".data
    ∧ (∀ s : Str, s ≠ [] → (∀ ch ∈ s, ch.isDigit = false) →
        extractYear s = "N/A".data) :=
  ⟨by decide, extractYear_four_digits_dash, by decide, extractYear_no_digits⟩

/-- Witness for C4 amended: the spec's own example date and a digit-free
garbage string. -/
theorem extract_year_amended_witness :
    extractYear ("2020-05-01".data) = "2020".data
    ∧ extractYear ("garbage".data) = "N/A".data :=
  ⟨extract_year_amended.2.1 '2' '0' '2' '0' ("05-01".data)
      (by decide) (by decide) (by decide) (by decide),
   extract_year_amended.2.2.2 ("garbage".data) (by decide) (by decide)⟩

/-- C5 counterexample: with an empty query text, `search_all` performs no
validation and surfaces no failure: the adapter is invoked and its record is
returned (processed normally), so no "hard validation failure before any
adapter is invoked" exists in the code. -/
theorem search_all_empty_query_counterexample :
    searchAll [] 2025 [adapterGood] none 5 false (fun _ => none)
      = [{ recGoodPaper with year := "2024".data, relevance := 0 }] := by
  decide

/-- C5 amended: `search_all` does not validate the query text at all.  For
every input — the empty query included — it invokes each active adapter once
with the query and the effective start year, and returns the ranked merge of
the successful adapters' outputs; it never fails. -/
theorem search_all_no_validation
    (term : Str) (currentYear : Int) (adapters : List Adapter)
    (startYear : Option Int) (lim : Nat) (free : Bool)
    (lookup : Rec → Option LookupData) :
    searchAll term currentYear adapters startYear lim free lookup
      = searchAllFromResults term lookup
          ((adapters.filterMap
            (fun a => a term (effectiveStartYear currentYear startYear) lim free)).flatten) := by
  simp only [searchAll, searchAllFromOutcomes, collectResults,
    List.filterMap_map, Function.comp_def, id_eq]

/-- C6 counterexample: a record whose citations value is missing/non-numeric
(`none`) leaves `search_all` with its stored citations field rewritten to 0 —
the field is mutated, not merely treated as 0 in the sort key. -/
theorem citations_mutation_counterexample :
    recNoCite.citations = none
    ∧ (searchAllFromResults "test".data (fun _ => none) [recNoCite]).map
        (fun r => r.citations) = [some 0] := by
  decide

/-- C6 amended: during ranking a record with a missing/non-numeric citation
count has its stored citations field overwritten with 0 (the sort key then
reads the stored value); every record returned by the pipeline carries an
integer citations value. -/
theorem citations_normalized_in_place :
    (∀ (term : Str) (r : Rec),
      (rankStep term r).citations = some (r.citations.getD 0))
    ∧ (∀ (term : Str) (lookup : Rec → Option LookupData) (l : List Rec),
        ∀ r ∈ searchAllFromResults term lookup l, r.citations.isSome = true) :=
  ⟨rankStep_citations, fun term lookup l r h =>
    mem_searchAllFromResults_citations term lookup l r h⟩

/-- Witness for C6 amended: the missing-citations record gets `some 0` both
through `rankStep` and in the pipeline output. -/
theorem citations_normalized_in_place_witness :
    (rankStep "test".data recNoCite).citations = some (recNoCite.citations.getD 0)
    ∧ ({ recNoCite with year := "N/A".data, relevance := 0, citations := some 0 }
        : Rec).citations.isSome = true :=
  ⟨citations_normalized_in_place.1 "test".data recNoCite,
   citations_normalized_in_place.2 "test".data (fun _ => none) [recNoCite] _ (by decide)⟩

/-- C7: the deduplication key is the title with non-alphanumeric characters
removed and letters lowercased: (a) no record with an empty normalized key
survives the merge; (b) two records with the same non-empty normalized key
collapse to a single output record; (c) for every non-empty key the merged
output contains exactly one record with that key when the input contains at
least one, and none otherwise. -/
theorem dedup_key_normalized_title :
    (∀ l : List Rec, ∀ r ∈ mergeAndDeduplicate l, normTitle r.title ≠ [])
    ∧ (∀ r1 r2 : Rec, normTitle r1.title = normTitle r2.title →
        normTitle r1.title ≠ [] → (mergeAndDeduplicate [r1, r2]).length = 1)
    ∧ (∀ (l : List Rec) (k : Str), k ≠ [] →
        (mergeAndDeduplicate l).countP (fun r => normTitle r.title == k)
          = if l.countP (fun r => normTitle r.title == k) = 0 then 0 else 1) := by
  refine ⟨?_, ?_, ?_⟩
  · intro l r hr
    exact (dedupScan_mem hr).2.1
  · intro r1 r2 hkey hnz
    have hnz2 : normTitle r2.title ≠ [] := by rw [← hkey]; exact hnz
    rw [mergeAndDeduplicate, sortByPriority_pair]
    by_cases hle : getPriority r1 ≤ getPriority r2
    · rw [if_pos hle, dedupScan_pair r1 r2 hkey.symm hnz]
      rfl
    · rw [if_neg hle, dedupScan_pair r2 r1 hkey hnz2]
      rfl
  · intro l k hk
    rw [mergeAndDeduplicate,
      dedupScan_countP_new (sortByPriority l) [] k hk (List.not_mem_nil k),
      sortByPriority,
      (bucketSort_perm getPriority 100 l
        (fun x _ => getPriority_lt_100 x)).countP_eq]

/-- Witness for C7: the spec's example pair "Curing Code Bugs" /
"CURING CODE BUGS!" collapses to one record, and its key counts once. -/
theorem dedup_key_normalized_title_witness :
    (mergeAndDeduplicate [recCuring1, recCuring2]).length = 1
    ∧ (mergeAndDeduplicate [recCuring1, recCuring2]).countP
        (fun r => normTitle r.title == normTitle recCuring1.title)
      = if ([recCuring1, recCuring2].countP
            (fun r => normTitle r.title == normTitle recCuring1.title)) = 0
        then 0 else 1 :=
  ⟨dedup_key_normalized_title.2.1 recCuring1 recCuring2 (by decide) (by decide),
   dedup_key_normalized_title.2.2 [recCuring1, recCuring2]
     (normTitle recCuring1.title) (by decide)⟩

/-- C8: the Enricher never overwrites an abstract of at least 50 characters;
a failed secondary lookup (raised exception or non-200 status, modelled as
`lookup r = none`) leaves the record unchanged rather than raising; and a
record without a DOI is left entirely unchanged.  `enrichRec` is a total
function, which is the "never raises" half of the claim. -/
theorem enricher_additive (lookup : Rec → Option LookupData) (r : Rec) :
    (r.doi = none → enrichRec lookup r = r)
    ∧ (lookup r = none → enrichRec lookup r = r)
    ∧ (50 ≤ r.abstract.length → (enrichRec lookup r).abstract = r.abstract) := by
  refine ⟨?_, ?_, ?_⟩
  · intro hdoi
    rw [enrichRec, if_neg (fun hg => by rw [hdoi] at hg; exact absurd hg.2 (by simp))]
  · intro hlk
    rw [enrichRec]
    by_cases hg : (r.abstract.length < 50 ∨ r.citations = some 0) ∧ r.doi.isSome = true
    · rw [if_pos hg, hlk]
    · rw [if_neg hg]
  · intro hlen
    have hna : ¬ (r.abstract.length < 50) := by omega
    rw [enrichRec]
    by_cases hg : (r.abstract.length < 50 ∨ r.citations = some 0) ∧ r.doi.isSome = true
    · rw [if_pos hg]
      cases hlk : lookup r with
      | none => rfl
      | some d =>
        simp only [if_neg hna]
        by_cases hp : r.pdfUrl = "N/A".data
        · by_cases hcit : r.citations = some 0 <;> simp [hp, hcit]
        · by_cases hcit : r.citations = some 0 <;> simp [hp, hcit]
    · rw [if_neg hg]

/-- Witness for C8: a DOI-less record with a long abstract, under a failing
lookup, is untouched in all three respects. -/
theorem enricher_additive_witness :
    (enrichRec (fun _ => none) recLongAbs = recLongAbs)
    ∧ (enrichRec (fun _ => none) recLongAbs = recLongAbs)
    ∧ ((enrichRec (fun _ => none) recLongAbs).abstract = recLongAbs.abstract) :=
  ⟨(enricher_additive (fun _ => none) recLongAbs).1 rfl,
   (enricher_additive (fun _ => none) recLongAbs).2.1 rfl,
   (enricher_additive (fun _ => none) recLongAbs).2.2 (by decide)⟩

/-- C9: for a fixed collection of per-adapter batches — each batch
source-uniform with a priority distinct from every other batch's, which is
what the five adapters produce, since each stamps its own source name and all
five names are distinct entries of the priority list — the pipeline output is
the same for every completion order of the batches: the merger's stable
priority sort restores determinism.  `hdis` states that two batches holding
records of equal priority are the same batch. -/
theorem completion_order_independence
    (term : Str) (lookup : Rec → Option LookupData)
    (batches batchesP : List (List Rec))
    (hperm : batchesP.Perm batches)
    (hdis : ∀ b ∈ batches, ∀ b' ∈ batches, ∀ x ∈ b, ∀ y ∈ b',
        getPriority x = getPriority y → b = b') :
    searchAllFromResults term lookup batchesP.flatten
      = searchAllFromResults term lookup batches.flatten := by
  suffices hsort : sortByPriority batchesP.flatten = sortByPriority batches.flatten by
    simp only [searchAllFromResults, mergeAndDeduplicate, hsort]
  simp only [sortByPriority, bucketSort]
  congr 1
  apply List.map_congr_left
  intro p _
  rw [List.filter_flatten, List.filter_flatten]
  apply flatten_eq_of_perm_sparse (hperm.map _)
  intro X hX Y hY hXne hYne
  rcases List.mem_map.mp hX with ⟨b, hb, hXb⟩
  rcases List.mem_map.mp hY with ⟨b', hb', hYb⟩
  obtain ⟨x, hx⟩ := List.exists_mem_of_ne_nil X hXne
  obtain ⟨y, hy⟩ := List.exists_mem_of_ne_nil Y hYne
  rw [← hXb] at hx
  rw [← hYb] at hy
  have hxf := List.mem_filter.mp hx
  have hyf := List.mem_filter.mp hy
  have hpx : getPriority x = p := by simpa using hxf.2
  have hpy : getPriority y = p := by simpa using hyf.2
  have hbb : b = b' := hdis b hb b' hb' x hxf.1 y hyf.1 (by rw [hpx, hpy])
  rw [← hXb, ← hYb, hbb]

/-- Witness for C9: two singleton batches from PubMed and PLOS give the same
output in both completion orders. -/
theorem completion_order_independence_witness :
    searchAllFromResults "q".data (fun _ => none) [[recCuring2], [recCuring1]].flatten
      = searchAllFromResults "q".data (fun _ => none) [[recCuring1], [recCuring2]].flatten :=
  completion_order_independence "q".data (fun _ => none)
    [[recCuring1], [recCuring2]] [[recCuring2], [recCuring1]]
    (by decide) (by decide)

/-- C10: when `start_year` is `None`, `search_all` substitutes
`get_current_year() - 10` and passes that value to every adapter, so a
ten-year window is applied by default: the call with no start year behaves
exactly like the call with `current year - 10`. -/
theorem default_start_year_window
    (term : Str) (currentYear : Int) (adapters : List Adapter)
    (lim : Nat) (free : Bool) (lookup : Rec → Option LookupData) :
    effectiveStartYear currentYear none = currentYear - 10
    ∧ (adapters.map (fun a => a term (effectiveStartYear currentYear none) lim free))
        = adapters.map (fun a => a term (currentYear - 10) lim free)
    ∧ searchAll term currentYear adapters none lim free lookup
        = searchAll term currentYear adapters (some (currentYear - 10)) lim free lookup :=
  ⟨rfl, rfl, rfl⟩
